import Mathlib

/-!
Verification of the amalgamation/packaging tool `package_simde.py`.

The tool flattens a fixed list of C header files: for each configured
top-level header it recursively inlines every resolvable local
`#include "..."` directive, suppressing duplicate expansion inside one run
via an `already_included` record, and finally zips the staging directory.

Shallow embedding conventions:
* The filesystem and path arithmetic (`os.path.realpath`, `dirname`,
  `join`, `relpath`, `exists`, text-mode `open`) are a structure of
  abstract functions, `FileSys`.  `readFile` returns the list of lines as
  Python's text-mode line iteration delivers them (each line carries its
  terminator); `readFile = none` models `open` raising `FileNotFoundError`
  (the race the code catches).
* `stream.write` calls become elements of a `List String`: one element per
  `write` call, in order.
* The unbounded recursion of `amalgamate` is embedded with explicit fuel;
  `none` is returned exactly on fuel exhaustion, every behaviour of the
  Python function yields `some`.
-/

/-- The whitespace class of the regex escape used on line 35
(`\s`), restricted to the ASCII whitespace characters. -/
def pySpace (c : Char) : Bool :=
  c == ' ' || c == '\t' || c == '\n' || c == '\r' || c == '\x0b' || c == '\x0c'

/-- Matching of the suffix `([^)]+)"\s$` of the regex on line 35 against the
reversed list of the characters standing after the opening quote, with
Python semantics: `$` accepts the end of the string or the position just
before a final newline, and `[^)]+` is greedy.  Hence the closing quote
must be the second-to-last character (the last being a single `\s`
character, which may itself be the final newline), or the third-to-last
when the string ends in `\n`; greediness prefers the later closing quote.
A match needs at least three characters after the opening quote (a
nonempty capture, the closing quote, one whitespace character). -/
def matchQuotedTailRev : List Char → Option (List Char)
  | w :: q :: q2 :: rest2 =>
    if q = '"' ∧ pySpace w = true ∧ ')' ∉ q2 :: rest2 then
      some ((q2 :: rest2).reverse)
    else if w = '\n' ∧ pySpace q = true ∧ q2 = '"' ∧ rest2 ≠ [] ∧ ')' ∉ rest2 then
      some (rest2.reverse)
    else none
  | _ => none

/-- The suffix matcher applied to the characters after the opening quote
(in source order).  Returns the captured group of `([^)]+)`. -/
def matchQuotedTail (cs : List Char) : Option (List Char) :=
  matchQuotedTailRev cs.reverse

/-- Stage of the regex after `\s+`: the remaining characters must start
with the opening double quote, and the rest must satisfy the suffix
matcher. -/
def afterQuote : List Char → Option String
  | q :: rest => if q = '"' then Option.map String.mk (matchQuotedTail rest) else none
  | [] => none

/-- Stage of the regex after the literal `include`: `\s+` demands at least
one whitespace character, then control passes to the quote stage. -/
def afterInclude : List Char → Option String
  | d :: l4t =>
    if pySpace d = true then afterQuote ((d :: l4t).dropWhile pySpace) else none
  | [] => none

/-- Stage of the regex after the `#`: `\s*` then the literal `include`. -/
def afterHash (l2 : List Char) : Option String :=
  if (l2.dropWhile pySpace).take 7 = ("include").data then
    afterInclude ((l2.dropWhile pySpace).drop 7)
  else none

/-- The compiled regex `amalgamate_include` of line 35,
`^\s*#\s*include\s+\"([^)]+)\"\s$`, as a matcher on one source line
(line text including its terminator).  Returns the captured path. -/
def amalgamate_include_match (s : String) : Option String :=
  match s.data.dropWhile pySpace with
  | c :: l2 => if c = '#' then afterHash l2 else none
  | [] => none

/-- Abstract filesystem and path arithmetic used by the script. -/
structure FileSys where
  realpath : String → String
  dirname : String → String
  joinPath : String → String → String
  relpath : String → String → String
  pathExists : String → Bool
  readFile : String → Option (List String)

/-- The `.replace` of backslashes by forward slashes on line 56. -/
def replaceBackslash (s : String) : String :=
  String.mk (s.data.map (fun c => if c = '\\' then '/' else c))

/-- The two banner lines written on lines 48-49 on every call. -/
def bannerLines (gitId : String) : List String :=
  ["/* AUTOMATICALLY GENERATED FILE, DO NOT MODIFY */\n",
   "/* " ++ gitId ++ " */\n"]

/-- The begin marker line written on line 57. -/
def beginMarker (rel : String) : String :=
  "/* :: Begin " ++ rel ++ " :: */\n"

/-- The end marker line written on line 69. -/
def endMarker (rel : String) : String :=
  "/* :: End " ++ rel ++ " :: */\n"

/-- The diagnostic line written into the stream on line 72 when the open
raised `FileNotFoundError`. -/
def errorLine (filename : String) : String :=
  "/* ERROR: Could not find file " ++ filename ++ " */\n"

/-- The body of the `for source_line in input_file` loop of lines 58-68:
each line is either recognised as a local include directive (then resolved
against the including file's directory and, when it exists, recursed into
via `rec`) or written verbatim.  Returns the written stream elements and
the updated `already_included` record; `none` bubbles up fuel exhaustion
of `rec`. -/
def processLines (fs : FileSys) (srcdir : String)
    (rec : String → List String → Option (List String × List String)) :
    List String → List String → Option (List String × List String)
  | [], already => some ([], already)
  | line :: rest, already =>
    match amalgamate_include_match line with
    | some inc =>
      let incPath := fs.joinPath srcdir inc
      if fs.pathExists incPath = true then
        match rec incPath already with
        | none => none
        | some r1 =>
          match processLines fs srcdir rec rest r1.2 with
          | none => none
          | some r2 => some (r1.1 ++ r2.1, r2.2)
      else
        match processLines fs srcdir rec rest already with
        | none => none
        | some r2 => some (line :: r2.1, r2.2)
    | none =>
      match processLines fs srcdir rec rest already with
      | none => none
      | some r2 => some (line :: r2.1, r2.2)

/-- The function `amalgamate(filename, stream, already_included, src_root,
git_id)` of lines 43-72, with explicit fuel for the recursion.  The result
is the list of stream writes together with the final record; `none` only on
fuel exhaustion. -/
def amalgamate (fs : FileSys) (gitId srcRoot : String) :
    Nat → String → List String → Option (List String × List String)
  | 0, _, _ => none
  | fuel + 1, filename, already =>
    let fullPath := fs.realpath filename
    let srcdir := fs.dirname fullPath
    if fullPath ∈ already then
      some (bannerLines gitId, already)
    else
      let already2 := already ++ [fullPath]
      match fs.readFile filename with
      | none => some (bannerLines gitId ++ [errorLine filename], already2)
      | some srcLines =>
        let relPathStr := replaceBackslash (fs.relpath fullPath srcRoot)
        match processLines fs srcdir (amalgamate fs gitId srcRoot fuel) srcLines already2 with
        | none => none
        | some r =>
          some (bannerLines gitId ++ [beginMarker relPathStr] ++ r.1 ++ [endMarker relPathStr],
                r.2)

/-- The configured file list `EXPECTED_FILES` of lines 10-33. -/
def EXPECTED_FILES : List String := [
  "arm/neon.h",
  "arm/sve.h",
  "mips/msa.h",
  "wasm/relaxed-simd.h",
  "wasm/simd128.h",
  "x86/aes.h",
  "x86/avx.h",
  "x86/avx2.h",
  "x86/avx512.h",
  "x86/clmul.h",
  "x86/f16c.h",
  "x86/fma.h",
  "x86/gfni.h",
  "x86/mmx.h",
  "x86/sse.h",
  "x86/sse2.h",
  "x86/sse3.h",
  "x86/sse4.1.h",
  "x86/sse4.2.h",
  "x86/ssse3.h",
  "x86/svml.h",
  "x86/xop.h"]

/-- The amalgamation loop of `main`, lines 107-120: one run per configured
entry whose source path exists, each run started with a brand-new empty
`already_included` record (line 120). -/
def mainRuns (fs : FileSys) (gitId sourceDir srcRoot : String) (fuel : Nat) :
    List (String × Option (List String × List String)) :=
  (EXPECTED_FILES.filter (fun rel => fs.pathExists (fs.joinPath sourceDir rel))).map
    (fun rel => (rel, amalgamate fs gitId srcRoot fuel (fs.joinPath sourceDir rel) []))

/-- The files present in the staging directory after `main`'s loop, lines
92-125: the staging directory is removed and recreated fresh (lines 92-97),
so it holds exactly the destination file of every configured entry whose
source exists (lines 115-120) plus, when `COPYING` exists at the invocation
directory, its copy at the staging root (lines 124-125). -/
def stagedFiles (fs : FileSys) (sourceDir outputSimdeDir baseDir : String)
    (copyingPresent : Bool) : List String :=
  (EXPECTED_FILES.filter (fun rel => fs.pathExists (fs.joinPath sourceDir rel))).map
    (fun rel => fs.joinPath outputSimdeDir rel)
  ++ (if copyingPresent then [fs.joinPath baseDir ("COPYING")] else [])

/-- The archive entry names produced by the zip loop of lines 128-133:
`os.walk` over the freshly built staging tree yields exactly the staged
files, and each entry name is `os.path.relpath(file_path, start=output_dir)`
(line 132) — relative to the output directory. -/
def archiveEntryNames (fs : FileSys) (sourceDir outputSimdeDir baseDir outputDir : String)
    (copyingPresent : Bool) : List String :=
  (stagedFiles fs sourceDir outputSimdeDir baseDir copyingPresent).map
    (fun p => fs.relpath p outputDir)


/-- Number of members of `keys` not yet in the record `a` (with
multiplicity in `keys`): the decreasing measure of the recursion, used to
express fuel sufficiency. -/
def remCount (keys a : List String) : Nat :=
  (keys.filter (fun k => decide (k ∉ a))).length

/-- Simple POSIX-style relative-path computation used by the concrete
filesystems below: when `start ++ "/"` is a prefix of `p`, strip it,
otherwise return `p` unchanged.  This is how `os.path.relpath` behaves on
the concrete path shapes appearing in the examples. -/
def posixRel (p start : String) : String :=
  if p.data.take (start.data.length + 1) = start.data ++ ['/'] then
    String.mk (p.data.drop (start.data.length + 1))
  else p

/-- Concrete filesystem for the archive-layout example: every path exists,
paths join with a slash, and `relpath` strips the start directory. -/
def fsArc : FileSys where
  realpath := fun p => p
  dirname := fun _ => ""
  joinPath := fun a b => a ++ "/" ++ b
  relpath := posixRel
  pathExists := fun _ => true
  readFile := fun _ => none

/-- Concrete filesystem with two configured top-level headers that share a
nested include target: `S/arm/neon.h` and `S/arm/sve.h` both include
`shared.h`, which resolves to `S/shared.h` holding one plain line.  Any
other path does not exist and cannot be read. -/
def fsM : FileSys where
  realpath := fun p => p
  dirname := fun _ => "S"
  joinPath := fun a b => a ++ "/" ++ b
  relpath := fun p _ => p
  pathExists := fun p => p == "S/arm/neon.h" || p == "S/arm/sve.h" || p == "S/shared.h"
  readFile := fun p =>
    if p == "S/arm/neon.h" then some ["#include \"shared.h\"\n"]
    else if p == "S/arm/sve.h" then some ["#include \"shared.h\"\n"]
    else if p == "S/shared.h" then some ["int x;\n"]
    else none

/-- Concrete filesystem whose include directives form a cycle:
`S/a.h` includes `b.h` and `S/b.h` includes `a.h`. -/
def fsC : FileSys where
  realpath := fun p => p
  dirname := fun _ => "S"
  joinPath := fun a b => a ++ "/" ++ b
  relpath := fun p _ => p
  pathExists := fun p => p == "S/a.h" || p == "S/b.h"
  readFile := fun p =>
    if p == "S/a.h" then some ["#include \"b.h\"\n"]
    else if p == "S/b.h" then some ["#include \"a.h\"\n"]
    else none

/-- The stream of the `fsM` run on `S/arm/neon.h` from a fresh record. -/
def out1W : List String :=
  ["/* AUTOMATICALLY GENERATED FILE, DO NOT MODIFY */\n", "/* G */\n",
   "/* :: Begin S/arm/neon.h :: */\n",
   "/* AUTOMATICALLY GENERATED FILE, DO NOT MODIFY */\n", "/* G */\n",
   "/* :: Begin S/shared.h :: */\n", "int x;\n", "/* :: End S/shared.h :: */\n",
   "/* :: End S/arm/neon.h :: */\n"]

/-- The stream of the `fsM` run on `S/arm/sve.h` from a fresh record. -/
def out2W : List String :=
  ["/* AUTOMATICALLY GENERATED FILE, DO NOT MODIFY */\n", "/* G */\n",
   "/* :: Begin S/arm/sve.h :: */\n",
   "/* AUTOMATICALLY GENERATED FILE, DO NOT MODIFY */\n", "/* G */\n",
   "/* :: Begin S/shared.h :: */\n", "int x;\n", "/* :: End S/shared.h :: */\n",
   "/* :: End S/arm/sve.h :: */\n"]

/-- The stream of the `fsM` run on `S/shared.h` from a fresh record. -/
def out3W : List String :=
  ["/* AUTOMATICALLY GENERATED FILE, DO NOT MODIFY */\n", "/* G */\n",
   "/* :: Begin S/shared.h :: */\n", "int x;\n", "/* :: End S/shared.h :: */\n"]

/-! ### Unfolding helper lemmas -/

theorem amalgamate_zero (fs : FileSys) (g sr fn : String) (a : List String) :
    amalgamate fs g sr 0 fn a = none := rfl

theorem amalgamate_succ_mem (fs : FileSys) (g sr : String) (fuel : Nat) (fn : String)
    (a : List String) (h : fs.realpath fn ∈ a) :
    amalgamate fs g sr (fuel + 1) fn a = some (bannerLines g, a) := by
  simp [amalgamate, h]

theorem amalgamate_succ_readNone (fs : FileSys) (g sr : String) (fuel : Nat) (fn : String)
    (a : List String) (h : fs.realpath fn ∉ a) (hr : fs.readFile fn = none) :
    amalgamate fs g sr (fuel + 1) fn a
      = some (bannerLines g ++ [errorLine fn], a ++ [fs.realpath fn]) := by
  simp [amalgamate, h, hr]

theorem amalgamate_succ_readSome (fs : FileSys) (g sr : String) (fuel : Nat) (fn : String)
    (a : List String) (lines : List String)
    (h : fs.realpath fn ∉ a) (hr : fs.readFile fn = some lines) :
    amalgamate fs g sr (fuel + 1) fn a =
      match processLines fs (fs.dirname (fs.realpath fn)) (amalgamate fs g sr fuel) lines
          (a ++ [fs.realpath fn]) with
      | none => none
      | some r =>
        some (bannerLines g
            ++ [beginMarker (replaceBackslash (fs.relpath (fs.realpath fn) sr))]
            ++ r.1
            ++ [endMarker (replaceBackslash (fs.relpath (fs.realpath fn) sr))], r.2) := by
  simp [amalgamate, h, hr]

theorem processLines_nil (fs : FileSys) (d : String)
    (rec : String → List String → Option (List String × List String)) (a : List String) :
    processLines fs d rec [] a = some ([], a) := rfl

theorem processLines_cons_plain (fs : FileSys) (d : String)
    (rec : String → List String → Option (List String × List String))
    (line : String) (rest a : List String)
    (hm : amalgamate_include_match line = none) :
    processLines fs d rec (line :: rest) a =
      match processLines fs d rec rest a with
      | none => none
      | some r2 => some (line :: r2.1, r2.2) := by
  simp [processLines, hm]

theorem processLines_cons_miss (fs : FileSys) (d : String)
    (rec : String → List String → Option (List String × List String))
    (line : String) (rest a : List String) (inc : String)
    (hm : amalgamate_include_match line = some inc)
    (hpe : fs.pathExists (fs.joinPath d inc) = false) :
    processLines fs d rec (line :: rest) a =
      match processLines fs d rec rest a with
      | none => none
      | some r2 => some (line :: r2.1, r2.2) := by
  simp [processLines, hm, hpe]

theorem processLines_cons_hit (fs : FileSys) (d : String)
    (rec : String → List String → Option (List String × List String))
    (line : String) (rest a : List String) (inc : String)
    (hm : amalgamate_include_match line = some inc)
    (hpe : fs.pathExists (fs.joinPath d inc) = true) :
    processLines fs d rec (line :: rest) a =
      match rec (fs.joinPath d inc) a with
      | none => none
      | some r1 =>
        match processLines fs d rec rest r1.2 with
        | none => none
        | some r2 => some (r1.1 ++ r2.1, r2.2) := by
  simp [processLines, hm, hpe]

/-! ### Claim C1 -/

/-- C1: every call of `amalgamate` (with fuel to run at all) that returns
first wrote the two banner lines — the fixed generated-file notice and then
the version-tag line — and a call whose target's canonical path is already
in the already-included record writes nothing further after the banners:
its whole output is the two banner lines, and the record is unchanged. -/
theorem c1_banners_then_duplicate_suppression (fs : FileSys) (g sr : String) (fuel : Nat)
    (fn : String) (a out b : List String)
    (h : amalgamate fs g sr (fuel + 1) fn a = some (out, b)) :
    out.take 2 = bannerLines g ∧
      (fs.realpath fn ∈ a → out = bannerLines g ∧ b = a) := by
  constructor
  · by_cases hmem : fs.realpath fn ∈ a
    · rw [amalgamate_succ_mem fs g sr fuel fn a hmem] at h
      obtain ⟨h1, h2⟩ := Prod.mk.injEq .. ▸ Option.some.inj h
      rw [← h1]
      simp [bannerLines]
    · cases hr : fs.readFile fn with
      | none =>
        rw [amalgamate_succ_readNone fs g sr fuel fn a hmem hr] at h
        obtain ⟨h1, h2⟩ := Prod.mk.injEq .. ▸ Option.some.inj h
        rw [← h1]
        simp [bannerLines]
      | some lines =>
        rw [amalgamate_succ_readSome fs g sr fuel fn a lines hmem hr] at h
        cases hp : processLines fs (fs.dirname (fs.realpath fn)) (amalgamate fs g sr fuel)
            lines (a ++ [fs.realpath fn]) with
        | none => rw [hp] at h; exact absurd h (by simp)
        | some r =>
          rw [hp] at h
          obtain ⟨h1, h2⟩ := Prod.mk.injEq .. ▸ Option.some.inj h
          rw [← h1]
          simp [bannerLines]
  · intro hmem
    rw [amalgamate_succ_mem fs g sr fuel fn a hmem] at h
    obtain ⟨h1, h2⟩ := Prod.mk.injEq .. ▸ Option.some.inj h
    exact ⟨h1.symm, h2.symm⟩

/-! ### Claim C5 -/

/-- C5: a matched include directive's quoted path is resolved by joining it
to the including file's own directory (the `dirname` of its canonical path,
not the top-level root); when the resolved path exists `amalgamate` recurses
into it with the same already-included record, the same display root and the
same version tag, and when it does not exist the original include line is
written to the output exactly as it appeared, with no banner or marker
wrapping around it.  Stated for a directive on the first line of the file. -/
theorem c5_include_resolution (fs : FileSys) (g sr : String) (fuel : Nat)
    (fn : String) (a : List String) (line : String) (rest : List String) (p : String)
    (hmem : fs.realpath fn ∉ a)
    (hread : fs.readFile fn = some (line :: rest))
    (hm : amalgamate_include_match line = some p) :
    (fs.pathExists (fs.joinPath (fs.dirname (fs.realpath fn)) p) = false →
      amalgamate fs g sr (fuel + 1) fn a =
        match processLines fs (fs.dirname (fs.realpath fn)) (amalgamate fs g sr fuel) rest
            (a ++ [fs.realpath fn]) with
        | none => none
        | some r2 =>
          some (bannerLines g
              ++ [beginMarker (replaceBackslash (fs.relpath (fs.realpath fn) sr))]
              ++ (line :: r2.1)
              ++ [endMarker (replaceBackslash (fs.relpath (fs.realpath fn) sr))], r2.2)) ∧
    (fs.pathExists (fs.joinPath (fs.dirname (fs.realpath fn)) p) = true →
      amalgamate fs g sr (fuel + 1) fn a =
        match amalgamate fs g sr fuel (fs.joinPath (fs.dirname (fs.realpath fn)) p)
            (a ++ [fs.realpath fn]) with
        | none => none
        | some r1 =>
          match processLines fs (fs.dirname (fs.realpath fn)) (amalgamate fs g sr fuel) rest
              r1.2 with
          | none => none
          | some r2 =>
            some (bannerLines g
                ++ [beginMarker (replaceBackslash (fs.relpath (fs.realpath fn) sr))]
                ++ (r1.1 ++ r2.1)
                ++ [endMarker (replaceBackslash (fs.relpath (fs.realpath fn) sr))], r2.2)) := by
  constructor
  · intro hpe
    rw [amalgamate_succ_readSome fs g sr fuel fn a (line :: rest) hmem hread,
      processLines_cons_miss fs (fs.dirname (fs.realpath fn)) (amalgamate fs g sr fuel)
        line rest (a ++ [fs.realpath fn]) p hm hpe]
    cases processLines fs (fs.dirname (fs.realpath fn)) (amalgamate fs g sr fuel) rest
        (a ++ [fs.realpath fn]) with
    | none => rfl
    | some r2 => rfl
  · intro hpe
    rw [amalgamate_succ_readSome fs g sr fuel fn a (line :: rest) hmem hread,
      processLines_cons_hit fs (fs.dirname (fs.realpath fn)) (amalgamate fs g sr fuel)
        line rest (a ++ [fs.realpath fn]) p hm hpe]
    cases amalgamate fs g sr fuel (fs.joinPath (fs.dirname (fs.realpath fn)) p)
        (a ++ [fs.realpath fn]) with
    | none => rfl
    | some r1 =>
      cases h2 : processLines fs (fs.dirname (fs.realpath fn)) (amalgamate fs g sr fuel) rest
          r1.2 with
      | none => simp [h2]
      | some r2 => simp [h2]

/-! ### Claim C6 -/

/-- C6: when the open of the file fails (`readFile` yields nothing although
the caller's existence check passed — the file vanished in between), the
call still returns normally (no exception escapes: the result is `some`) and
the output holds the two banners followed by exactly one diagnostic line
noting the failure — no begin/end markers and no body — so the caller goes
on with its remaining lines and sibling files. -/
theorem c6_open_failure_single_diagnostic (fs : FileSys) (g sr : String) (fuel : Nat)
    (fn : String) (a : List String)
    (hmem : fs.realpath fn ∉ a) (hr : fs.readFile fn = none) :
    amalgamate fs g sr (fuel + 1) fn a
      = some (bannerLines g ++ [errorLine fn], a ++ [fs.realpath fn]) :=
  amalgamate_succ_readNone fs g sr fuel fn a hmem hr

/-! ### Claim C8 -/

/-- C8: a file whose open attempt fails is nevertheless recorded as
already-included — its canonical path is appended to the record before the
open is attempted — so any later call reaching the same canonical path in
that run (through any filesystem view `fs2` agreeing on the canonical path,
whatever its `readFile` does: the read is not retried) emits only the two
banner lines, and the diagnostic line is emitted at most once per path. -/
theorem c8_failed_open_still_recorded (fs fs2 : FileSys) (g g2 sr sr2 : String)
    (fuel fuel2 : Nat) (fn fn2 : String) (a : List String)
    (hmem : fs.realpath fn ∉ a) (hr : fs.readFile fn = none)
    (hsame : fs2.realpath fn2 = fs.realpath fn) :
    (amalgamate fs g sr (fuel + 1) fn a
        = some (bannerLines g ++ [errorLine fn], a ++ [fs.realpath fn])
      ∧ fs.realpath fn ∈ a ++ [fs.realpath fn]) ∧
    amalgamate fs2 g2 sr2 (fuel2 + 1) fn2 (a ++ [fs.realpath fn])
      = some (bannerLines g2, a ++ [fs.realpath fn]) := by
  refine ⟨⟨amalgamate_succ_readNone fs g sr fuel fn a hmem hr, by simp⟩, ?_⟩
  exact amalgamate_succ_mem fs2 g2 sr2 fuel2 fn2 (a ++ [fs.realpath fn])
    (by rw [hsame]; simp)

/-! ### Claim C3 -/

theorem processLines_mem_of_no_match (fs : FileSys) (d : String)
    (rec : String → List String → Option (List String × List String))
    (line : String) (hm : amalgamate_include_match line = none) :
    ∀ (lines a : List String) (r : List String × List String),
      line ∈ lines → processLines fs d rec lines a = some r → line ∈ r.1 := by
  intro lines
  induction lines with
  | nil => intro a r hl _; simp at hl
  | cons l rest ih =>
    intro a r hl hp
    rcases List.mem_cons.mp hl with heq | hmemr
    · subst heq
      rw [processLines_cons_plain fs d rec line rest a hm] at hp
      cases h2 : processLines fs d rec rest a with
      | none => rw [h2] at hp; exact absurd hp (by simp)
      | some r2 =>
        rw [h2] at hp
        cases Option.some.inj hp
        simp
    · cases hml : amalgamate_include_match l with
      | none =>
        rw [processLines_cons_plain fs d rec l rest a hml] at hp
        cases h2 : processLines fs d rec rest a with
        | none => rw [h2] at hp; exact absurd hp (by simp)
        | some r2 =>
          rw [h2] at hp
          cases Option.some.inj hp
          exact List.mem_cons_of_mem l (ih a r2 hmemr h2)
      | some inc =>
        cases hpe : fs.pathExists (fs.joinPath d inc) with
        | false =>
          rw [processLines_cons_miss fs d rec l rest a inc hml hpe] at hp
          cases h2 : processLines fs d rec rest a with
          | none => rw [h2] at hp; exact absurd hp (by simp)
          | some r2 =>
            rw [h2] at hp
            cases Option.some.inj hp
            exact List.mem_cons_of_mem l (ih a r2 hmemr h2)
        | true =>
          rw [processLines_cons_hit fs d rec l rest a inc hml hpe] at hp
          cases h1 : rec (fs.joinPath d inc) a with
          | none => rw [h1] at hp; exact absurd hp (by simp)
          | some r1 =>
            rw [h1] at hp
            cases h2 : processLines fs d rec rest r1.2 with
            | none => simp [h2] at hp
            | some r2 =>
              simp only [h2] at hp
              cases Option.some.inj hp
              exact List.mem_append_right r1.1 (ih r1.2 r2 hmemr h2)

/-- C3: every input line of a file being expanded that does not match the
local-include pattern — an angle-bracket include, a commented-out include,
an include with trailing text — appears in the output stream as one
unchanged write, character for character (each element of the output list
is the exact string of one `stream.write` call, so membership is
byte-identity of the whole line, terminator included). -/
theorem c3_verbatim_passthrough (fs : FileSys) (g sr : String) (fuel : Nat)
    (fn : String) (a : List String) (lines : List String) (line : String)
    (out b : List String)
    (hmem : fs.realpath fn ∉ a)
    (hread : fs.readFile fn = some lines)
    (hl : line ∈ lines)
    (hm : amalgamate_include_match line = none)
    (h : amalgamate fs g sr (fuel + 1) fn a = some (out, b)) :
    line ∈ out := by
  rw [amalgamate_succ_readSome fs g sr fuel fn a lines hmem hread] at h
  cases hp : processLines fs (fs.dirname (fs.realpath fn)) (amalgamate fs g sr fuel)
      lines (a ++ [fs.realpath fn]) with
  | none => rw [hp] at h; exact absurd h (by simp)
  | some r =>
    rw [hp] at h
    obtain ⟨h1, _⟩ := Prod.mk.injEq .. ▸ Option.some.inj h
    rw [← h1]
    have hmem2 := processLines_mem_of_no_match fs (fs.dirname (fs.realpath fn))
      (amalgamate fs g sr fuel) line hm lines (a ++ [fs.realpath fn]) r hl hp
    simp only [List.append_assoc, List.mem_append]
    exact Or.inr (Or.inr (Or.inl hmem2))

/-! ### Record-growth lemmas -/

theorem processLines_record_extends (fs : FileSys) (d : String)
    (rec : String → List String → Option (List String × List String))
    (hrec : ∀ ip a r, rec ip a = some r → a ⊆ r.2) :
    ∀ (lines a : List String) (r : List String × List String),
      processLines fs d rec lines a = some r → a ⊆ r.2 := by
  intro lines
  induction lines with
  | nil => intro a r hp; cases Option.some.inj hp; exact fun x hx => hx
  | cons l rest ih =>
    intro a r hp
    cases hml : amalgamate_include_match l with
    | none =>
      rw [processLines_cons_plain fs d rec l rest a hml] at hp
      cases h2 : processLines fs d rec rest a with
      | none => rw [h2] at hp; exact absurd hp (by simp)
      | some r2 => rw [h2] at hp; cases Option.some.inj hp; exact ih a r2 h2
    | some inc =>
      cases hpe : fs.pathExists (fs.joinPath d inc) with
      | false =>
        rw [processLines_cons_miss fs d rec l rest a inc hml hpe] at hp
        cases h2 : processLines fs d rec rest a with
        | none => rw [h2] at hp; exact absurd hp (by simp)
        | some r2 => rw [h2] at hp; cases Option.some.inj hp; exact ih a r2 h2
      | true =>
        rw [processLines_cons_hit fs d rec l rest a inc hml hpe] at hp
        cases h1 : rec (fs.joinPath d inc) a with
        | none => rw [h1] at hp; exact absurd hp (by simp)
        | some r1 =>
          rw [h1] at hp
          cases h2 : processLines fs d rec rest r1.2 with
          | none => simp [h2] at hp
          | some r2 =>
            simp only [h2] at hp
            cases Option.some.inj hp
            exact (hrec (fs.joinPath d inc) a r1 h1).trans (ih r1.2 r2 h2)

theorem amalgamate_record_extends (fs : FileSys) (g sr : String) :
    ∀ (fuel : Nat) (fn : String) (a : List String) (r : List String × List String),
      amalgamate fs g sr fuel fn a = some r → a ⊆ r.2 := by
  intro fuel
  induction fuel with
  | zero => intro fn a r h; exact absurd h (by simp [amalgamate_zero])
  | succ n ih =>
    intro fn a r h
    by_cases hmem : fs.realpath fn ∈ a
    · rw [amalgamate_succ_mem fs g sr n fn a hmem] at h
      cases Option.some.inj h
      exact fun x hx => hx
    · cases hr : fs.readFile fn with
      | none =>
        rw [amalgamate_succ_readNone fs g sr n fn a hmem hr] at h
        cases Option.some.inj h
        exact List.subset_append_left a [fs.realpath fn]
      | some lines =>
        rw [amalgamate_succ_readSome fs g sr n fn a lines hmem hr] at h
        cases hp : processLines fs (fs.dirname (fs.realpath fn)) (amalgamate fs g sr n)
            lines (a ++ [fs.realpath fn]) with
        | none => rw [hp] at h; exact absurd h (by simp)
        | some r2 =>
          rw [hp] at h
          cases Option.some.inj h
          exact (List.subset_append_left a [fs.realpath fn]).trans
            (processLines_record_extends fs (fs.dirname (fs.realpath fn))
              (amalgamate fs g sr n) (fun ip a' r' h' => ih ip a' r' h')
              lines (a ++ [fs.realpath fn]) r2 hp)

/-! ### Full-expansion (begin/end marker) lemmas for claim C2 -/

theorem processLines_markers (fs : FileSys) (sr d : String)
    (rec : String → List String → Option (List String × List String))
    (hrec : ∀ ip a r, fs.pathExists ip = true → rec ip a = some r →
      ∀ x, x ∈ r.2 → x ∉ a →
        beginMarker (replaceBackslash (fs.relpath x sr)) ∈ r.1 ∧
        endMarker (replaceBackslash (fs.relpath x sr)) ∈ r.1) :
    ∀ (lines a : List String) (r : List String × List String),
      processLines fs d rec lines a = some r →
      ∀ x, x ∈ r.2 → x ∉ a →
        beginMarker (replaceBackslash (fs.relpath x sr)) ∈ r.1 ∧
        endMarker (replaceBackslash (fs.relpath x sr)) ∈ r.1 := by
  intro lines
  induction lines with
  | nil =>
    intro a r hp x hx hxa
    cases Option.some.inj hp
    exact absurd hx hxa
  | cons l rest ih =>
    intro a r hp x hx hxa
    cases hml : amalgamate_include_match l with
    | none =>
      rw [processLines_cons_plain fs d rec l rest a hml] at hp
      cases h2 : processLines fs d rec rest a with
      | none => rw [h2] at hp; exact absurd hp (by simp)
      | some r2 =>
        rw [h2] at hp
        cases Option.some.inj hp
        have := ih a r2 h2 x hx hxa
        exact ⟨List.mem_cons_of_mem l this.1, List.mem_cons_of_mem l this.2⟩
    | some inc =>
      cases hpe : fs.pathExists (fs.joinPath d inc) with
      | false =>
        rw [processLines_cons_miss fs d rec l rest a inc hml hpe] at hp
        cases h2 : processLines fs d rec rest a with
        | none => rw [h2] at hp; exact absurd hp (by simp)
        | some r2 =>
          rw [h2] at hp
          cases Option.some.inj hp
          have := ih a r2 h2 x hx hxa
          exact ⟨List.mem_cons_of_mem l this.1, List.mem_cons_of_mem l this.2⟩
      | true =>
        rw [processLines_cons_hit fs d rec l rest a inc hml hpe] at hp
        cases h1 : rec (fs.joinPath d inc) a with
        | none => rw [h1] at hp; exact absurd hp (by simp)
        | some r1 =>
          rw [h1] at hp
          cases h2 : processLines fs d rec rest r1.2 with
          | none => simp [h2] at hp
          | some r2 =>
            simp only [h2] at hp
            cases Option.some.inj hp
            by_cases hxr1 : x ∈ r1.2
            · have := hrec (fs.joinPath d inc) a r1 hpe h1 x hxr1 hxa
              exact ⟨List.mem_append_left r2.1 this.1, List.mem_append_left r2.1 this.2⟩
            · have := ih r1.2 r2 h2 x hx hxr1
              exact ⟨List.mem_append_right r1.1 this.1, List.mem_append_right r1.1 this.2⟩

theorem amalgamate_markers (fs : FileSys) (g sr : String)
    (noRace : ∀ p, fs.pathExists p = true → (fs.readFile p).isSome = true) :
    ∀ (fuel : Nat) (fn : String) (a : List String) (r : List String × List String),
      fs.pathExists fn = true → amalgamate fs g sr fuel fn a = some r →
      ∀ x, x ∈ r.2 → x ∉ a →
        beginMarker (replaceBackslash (fs.relpath x sr)) ∈ r.1 ∧
        endMarker (replaceBackslash (fs.relpath x sr)) ∈ r.1 := by
  intro fuel
  induction fuel with
  | zero => intro fn a r _ h; exact absurd h (by simp [amalgamate_zero])
  | succ n ih =>
    intro fn a r hpe h x hx hxa
    by_cases hmem : fs.realpath fn ∈ a
    · rw [amalgamate_succ_mem fs g sr n fn a hmem] at h
      cases Option.some.inj h
      exact absurd hx hxa
    · cases hr : fs.readFile fn with
      | none => have := noRace fn hpe; rw [hr] at this; exact absurd this (by simp)
      | some lines =>
        rw [amalgamate_succ_readSome fs g sr n fn a lines hmem hr] at h
        cases hp : processLines fs (fs.dirname (fs.realpath fn)) (amalgamate fs g sr n)
            lines (a ++ [fs.realpath fn]) with
        | none => rw [hp] at h; exact absurd h (by simp)
        | some r2 =>
          rw [hp] at h
          cases Option.some.inj h
          by_cases hxrp : x = fs.realpath fn
          · subst hxrp
            constructor
            · simp [List.mem_append]
            · simp [List.mem_append]
          · have hxa2 : x ∉ a ++ [fs.realpath fn] := by
              simp only [List.mem_append, List.mem_singleton]
              rintro (h' | h')
              · exact hxa h'
              · exact hxrp h'
            have := processLines_markers fs sr (fs.dirname (fs.realpath fn))
              (amalgamate fs g sr n)
              (fun ip a' r' hpe' h' => ih ip a' r' hpe' h')
              lines (a ++ [fs.realpath fn]) r2 hp x hx hxa2
            constructor
            · simp only [List.append_assoc, List.mem_append]
              exact Or.inr (Or.inr (Or.inl this.1))
            · simp only [List.append_assoc, List.mem_append]
              exact Or.inr (Or.inr (Or.inl this.2))

/-! ### Claim C2 -/

/-- C2: each configured top-level header is amalgamated with a brand-new
empty already-included record — the pair a run contributes to `mainRuns` is
exactly `amalgamate` started from `[]` — so no memoization state crosses
between runs; consequently, when two configured headers both reach a common
nested include target `s` (its canonical path ends up in both final
records), each of the two outputs contains its own full expansion of `s`:
the begin marker and the end marker of `s` appear in both outputs
(hypothesis `noRace`: files that pass the existence check can be opened). -/
theorem c2_fresh_record_independent_expansion (fs : FileSys) (g sd sr : String) (fuel : Nat)
    (noRace : ∀ p, fs.pathExists p = true → (fs.readFile p).isSome = true)
    (rel1 rel2 : String) (h1 : rel1 ∈ EXPECTED_FILES) (h2 : rel2 ∈ EXPECTED_FILES)
    (he1 : fs.pathExists (fs.joinPath sd rel1) = true)
    (he2 : fs.pathExists (fs.joinPath sd rel2) = true)
    (out1 b1 out2 b2 : List String)
    (hr1 : amalgamate fs g sr fuel (fs.joinPath sd rel1) [] = some (out1, b1))
    (hr2 : amalgamate fs g sr fuel (fs.joinPath sd rel2) [] = some (out2, b2))
    (s : String) (hs1 : s ∈ b1) (hs2 : s ∈ b2) :
    ((rel1, amalgamate fs g sr fuel (fs.joinPath sd rel1) []) ∈ mainRuns fs g sd sr fuel) ∧
    ((rel2, amalgamate fs g sr fuel (fs.joinPath sd rel2) []) ∈ mainRuns fs g sd sr fuel) ∧
    beginMarker (replaceBackslash (fs.relpath s sr)) ∈ out1 ∧
    endMarker (replaceBackslash (fs.relpath s sr)) ∈ out1 ∧
    beginMarker (replaceBackslash (fs.relpath s sr)) ∈ out2 ∧
    endMarker (replaceBackslash (fs.relpath s sr)) ∈ out2 := by
  have hm1 := amalgamate_markers fs g sr noRace fuel (fs.joinPath sd rel1) [] (out1, b1)
    he1 hr1 s hs1 (by simp)
  have hm2 := amalgamate_markers fs g sr noRace fuel (fs.joinPath sd rel2) [] (out2, b2)
    he2 hr2 s hs2 (by simp)
  refine ⟨?_, ?_, hm1.1, hm1.2, hm2.1, hm2.2⟩
  · exact List.mem_map.mpr ⟨rel1, List.mem_filter.mpr ⟨h1, he1⟩, rfl⟩
  · exact List.mem_map.mpr ⟨rel2, List.mem_filter.mpr ⟨h2, he2⟩, rfl⟩

/-! ### Fuel sufficiency (claim C9) -/

theorem remCount_cons (k : String) (ks a : List String) :
    remCount (k :: ks) a = (if k ∈ a then 0 else 1) + remCount ks a := by
  by_cases hka : k ∈ a
  · simp [remCount, List.filter_cons, hka]
  · simp [remCount, List.filter_cons, hka]
    omega

theorem remCount_le_of_sub (keys : List String) (a b : List String) (h : a ⊆ b) :
    remCount keys b ≤ remCount keys a := by
  induction keys with
  | nil => simp [remCount]
  | cons k ks ih =>
    rw [remCount_cons, remCount_cons]
    by_cases hka : k ∈ a
    · simp [hka, h hka]; omega
    · by_cases hkb : k ∈ b <;> simp [hka, hkb] <;> omega

theorem remCount_append_lt (keys : List String) (a : List String) (x : String)
    (hx : x ∈ keys) (hxa : x ∉ a) :
    remCount keys (a ++ [x]) < remCount keys a := by
  induction keys with
  | nil => simp at hx
  | cons k ks ih =>
    rw [remCount_cons, remCount_cons]
    have hle : remCount ks (a ++ [x]) ≤ remCount ks a :=
      remCount_le_of_sub ks a (a ++ [x]) (List.subset_append_left a [x])
    rcases List.mem_cons.mp hx with rfl | hx'
    · have h1 : x ∈ a ++ [x] := by simp
      simp [h1, hxa]
      omega
    · have hlt := ih hx'
      by_cases hka : k ∈ a
      · have h1 : k ∈ a ++ [x] := List.mem_append_left [x] hka
        simp [h1, hka]; omega
      · by_cases hkx : k ∈ a ++ [x]
        · simp [hkx, hka]; omega
        · simp [hkx, hka]; omega

theorem amalgamate_isSome_aux (fs : FileSys) (g sr : String) (keys : List String)
    (hk : ∀ p, fs.pathExists p = true → fs.realpath p ∈ keys) :
    ∀ (fuel : Nat) (fn : String) (a : List String),
      ((fs.pathExists fn = true ∧ remCount keys a + 1 ≤ fuel) ∨ remCount keys a + 2 ≤ fuel) →
      (amalgamate fs g sr fuel fn a).isSome = true := by
  intro fuel
  induction fuel with
  | zero => intro fn a h; rcases h with ⟨_, h⟩ | h <;> omega
  | succ n ih =>
    intro fn a h
    by_cases hmem : fs.realpath fn ∈ a
    · rw [amalgamate_succ_mem fs g sr n fn a hmem]; rfl
    · have hbound : remCount keys (a ++ [fs.realpath fn]) + 1 ≤ n := by
        rcases h with ⟨hpe, hle⟩ | hle
        · have hlt := remCount_append_lt keys a (fs.realpath fn) (hk fn hpe) hmem
          omega
        · have hle2 := remCount_le_of_sub keys a (a ++ [fs.realpath fn])
            (List.subset_append_left a [fs.realpath fn])
          omega
      cases hr : fs.readFile fn with
      | none => rw [amalgamate_succ_readNone fs g sr n fn a hmem hr]; rfl
      | some lines =>
        rw [amalgamate_succ_readSome fs g sr n fn a lines hmem hr]
        have hPL : ∀ (ls a2 : List String),
            remCount keys a2 + 1 ≤ n →
            (processLines fs (fs.dirname (fs.realpath fn)) (amalgamate fs g sr n)
              ls a2).isSome = true := by
          intro ls
          induction ls with
          | nil => intro a2 _; rfl
          | cons l rest ihl =>
            intro a2 hn2
            cases hml : amalgamate_include_match l with
            | none =>
              rw [processLines_cons_plain fs (fs.dirname (fs.realpath fn))
                (amalgamate fs g sr n) l rest a2 hml]
              have h2s := ihl a2 hn2
              cases h2 : processLines fs (fs.dirname (fs.realpath fn))
                  (amalgamate fs g sr n) rest a2 with
              | none => rw [h2] at h2s; exact absurd h2s (by simp)
              | some r2 => rfl
            | some inc =>
              cases hpe2 : fs.pathExists
                  (fs.joinPath (fs.dirname (fs.realpath fn)) inc) with
              | false =>
                rw [processLines_cons_miss fs (fs.dirname (fs.realpath fn))
                  (amalgamate fs g sr n) l rest a2 inc hml hpe2]
                have h2s := ihl a2 hn2
                cases h2 : processLines fs (fs.dirname (fs.realpath fn))
                    (amalgamate fs g sr n) rest a2 with
                | none => rw [h2] at h2s; exact absurd h2s (by simp)
                | some r2 => rfl
              | true =>
                rw [processLines_cons_hit fs (fs.dirname (fs.realpath fn))
                  (amalgamate fs g sr n) l rest a2 inc hml hpe2]
                have hrec := ih (fs.joinPath (fs.dirname (fs.realpath fn)) inc) a2
                  (Or.inl ⟨hpe2, hn2⟩)
                cases h1 : amalgamate fs g sr n
                    (fs.joinPath (fs.dirname (fs.realpath fn)) inc) a2 with
                | none => rw [h1] at hrec; exact absurd hrec (by simp)
                | some r1 =>
                  have hsub := amalgamate_record_extends fs g sr n
                    (fs.joinPath (fs.dirname (fs.realpath fn)) inc) a2 r1 h1
                  have hn3 : remCount keys r1.2 + 1 ≤ n := by
                    have := remCount_le_of_sub keys a2 r1.2 hsub
                    omega
                  have h2s := ihl r1.2 hn3
                  cases h2 : processLines fs (fs.dirname (fs.realpath fn))
                      (amalgamate fs g sr n) rest r1.2 with
                  | none => rw [h2] at h2s; exact absurd h2s (by simp)
                  | some r2 => simp only [h2]; rfl
        have hps := hPL lines (a ++ [fs.realpath fn]) hbound
        cases hp : processLines fs (fs.dirname (fs.realpath fn)) (amalgamate fs g sr n)
            lines (a ++ [fs.realpath fn]) with
        | none => rw [hp] at hps; exact absurd hps (by simp)
        | some r => rfl

/-! ### Claim C9 -/

/-- C9: `amalgamate` terminates on every finite filesystem even when the
include directives form a cycle: whenever every existing path's canonical
form lies in a finite list `keys`, fuel `remCount keys a + 2` (two more
than the number of canonical paths not yet recorded) is enough for the
fuel embedding to deliver a result — each recursive call either inserts a
canonical path not previously in the already-included record, shrinking
the measure, or returns immediately after the two banner lines. -/
theorem c9_terminates_on_cycles (fs : FileSys) (g sr : String) (keys : List String)
    (hk : ∀ p, fs.pathExists p = true → fs.realpath p ∈ keys)
    (fuel : Nat) (fn : String) (a : List String)
    (hfuel : remCount keys a + 2 ≤ fuel) :
    (amalgamate fs g sr fuel fn a).isSome = true :=
  amalgamate_isSome_aux fs g sr keys hk fuel fn a (Or.inr hfuel)

/-! ### Regex characterization (claims C4 and C10) -/

theorem dropWhile_all_cons (p : Char → Bool) (xs : List Char) (y : Char) (ys : List Char)
    (hxs : ∀ c ∈ xs, p c = true) (hy : p y = false) :
    (xs ++ y :: ys).dropWhile p = y :: ys := by
  induction xs with
  | nil => rw [List.nil_append, List.dropWhile_cons, if_neg (by simp [hy])]
  | cons a xs ih =>
    have ha := hxs a (List.mem_cons_self a xs)
    rw [List.cons_append, List.dropWhile_cons, if_pos ha]
    exact ih (fun c hc => hxs c (List.mem_cons_of_mem a hc))

theorem matchQuotedTailRev_cons3 (w q q2 : Char) (rest2 : List Char) :
    matchQuotedTailRev (w :: q :: q2 :: rest2) =
      if q = '"' ∧ pySpace w = true ∧ ')' ∉ q2 :: rest2 then
        some ((q2 :: rest2).reverse)
      else if w = '\n' ∧ pySpace q = true ∧ q2 = '"' ∧ rest2 ≠ [] ∧ ')' ∉ rest2 then
        some (rest2.reverse)
      else none := rfl

theorem matchQuotedTail_sound (cs cap : List Char)
    (h : matchQuotedTail cs = some cap) :
    cap ≠ [] ∧ ')' ∉ cap ∧
      ∃ w t, pySpace w = true ∧ (t = [] ∨ t = ['\n']) ∧ cs = cap ++ '"' :: w :: t := by
  unfold matchQuotedTail at h
  cases hrev : cs.reverse with
  | nil => rw [hrev] at h; exact absurd h (by simp [matchQuotedTailRev])
  | cons w rest0 =>
    cases rest0 with
    | nil => rw [hrev] at h; exact absurd h (by simp [matchQuotedTailRev])
    | cons q rest1 =>
      cases rest1 with
      | nil => rw [hrev] at h; exact absurd h (by simp [matchQuotedTailRev])
      | cons q2 rest2 =>
        rw [hrev, matchQuotedTailRev_cons3] at h
        have hcs : cs = (w :: q :: q2 :: rest2).reverse := by
          rw [← hrev, List.reverse_reverse]
        by_cases hA : q = '"' ∧ pySpace w = true ∧ ')' ∉ q2 :: rest2
        · rw [if_pos hA] at h
          obtain ⟨hq, hw, hnp⟩ := hA
          cases Option.some.inj h
          refine ⟨by simp, by rw [List.mem_reverse]; exact hnp, w, [], hw, Or.inl rfl, ?_⟩
          rw [hcs]
          subst hq
          simp
        · rw [if_neg hA] at h
          by_cases hB : w = '\n' ∧ pySpace q = true ∧ q2 = '"' ∧ rest2 ≠ [] ∧ ')' ∉ rest2
          · rw [if_pos hB] at h
            obtain ⟨hw', hq', hq2, hne, hnp⟩ := hB
            cases Option.some.inj h
            refine ⟨by simpa using hne, by simpa using hnp, q, ['\n'], hq', Or.inr rfl, ?_⟩
            rw [hcs]
            subst hw'
            subst hq2
            simp
          · rw [if_neg hB] at h
            exact absurd h (by simp)

theorem matchQuotedTail_complete (cap : List Char) (w : Char) (t : List Char)
    (hcapne : cap ≠ []) (hcapnp : ')' ∉ cap) (hw : pySpace w = true)
    (ht : t = [] ∨ t = ['\n']) :
    matchQuotedTail (cap ++ '"' :: w :: t) = some cap := by
  obtain ⟨c, cr, hc⟩ : ∃ c cr, cap.reverse = c :: cr := by
    cases hcr : cap.reverse with
    | nil => exact absurd (by simpa using hcr) hcapne
    | cons c cr => exact ⟨c, cr, rfl⟩
  rcases ht with rfl | rfl
  · have hrev : (cap ++ '"' :: w :: []).reverse = w :: '"' :: c :: cr := by
      rw [← hc]
      simp
    unfold matchQuotedTail
    rw [hrev, matchQuotedTailRev_cons3]
    have hg : '"' = '"' ∧ pySpace w = true ∧ ')' ∉ c :: cr := by
      refine ⟨rfl, hw, ?_⟩
      rw [← hc]
      simpa using hcapnp
    rw [if_pos hg, ← hc, List.reverse_reverse]
  · have hrev : (cap ++ '"' :: w :: ['\n']).reverse = '\n' :: w :: '"' :: cap.reverse := by
      simp
    unfold matchQuotedTail
    rw [hrev, matchQuotedTailRev_cons3]
    have hne : ¬(w = '"' ∧ pySpace '\n' = true ∧ ')' ∉ '"' :: cap.reverse) := by
      rintro ⟨hh, -, -⟩
      rw [hh] at hw
      exact absurd hw (by decide)
    have hg : '\n' = '\n' ∧ pySpace w = true ∧ '"' = '"' ∧ cap.reverse ≠ [] ∧
        ')' ∉ cap.reverse := by
      refine ⟨rfl, hw, rfl, by simpa using hcapne, by simpa using hcapnp⟩
    rw [if_neg hne, if_pos hg, List.reverse_reverse]

theorem include_match_sound (s : String) (p : String)
    (h : amalgamate_include_match s = some p) :
    ∃ w1 w2 w3 cap w t, p = String.mk cap ∧
      s.data = w1 ++ '#' :: (w2 ++ (("include").data ++ (w3 ++ '"' ::
        (cap ++ '"' :: w :: t)))) ∧
      (∀ c ∈ w1, pySpace c = true) ∧ (∀ c ∈ w2, pySpace c = true) ∧
      (∀ c ∈ w3, pySpace c = true) ∧ w3 ≠ [] ∧ cap ≠ [] ∧ ')' ∉ cap ∧
      pySpace w = true ∧ (t = [] ∨ t = ['\n']) := by
  unfold amalgamate_include_match at h
  cases e1 : s.data.dropWhile pySpace with
  | nil => rw [e1] at h; exact absurd h (by simp)
  | cons c l2 =>
    rw [e1] at h
    have h2 : (if c = '#' then afterHash l2 else none) = some p := h
    by_cases hc : c = '#'
    · subst hc
      rw [if_pos rfl] at h2
      unfold afterHash at h2
      by_cases h7 : (l2.dropWhile pySpace).take 7 = ("include").data
      · rw [if_pos h7] at h2
        cases e3 : (l2.dropWhile pySpace).drop 7 with
        | nil => rw [e3] at h2; exact absurd h2 (by simp [afterInclude])
        | cons d l4t =>
          rw [e3] at h2
          have h3 : (if pySpace d = true then
              afterQuote ((d :: l4t).dropWhile pySpace) else none) = some p := h2
          by_cases hd : pySpace d = true
          · rw [if_pos hd] at h3
            cases e4 : (d :: l4t).dropWhile pySpace with
            | nil => rw [e4] at h3; exact absurd h3 (by simp [afterQuote])
            | cons q rest =>
              rw [e4] at h3
              have h4 : (if q = '"' then
                  Option.map String.mk (matchQuotedTail rest) else none) = some p := h3
              by_cases hq : q = '"'
              · subst hq
                rw [if_pos rfl] at h4
                cases hmt : matchQuotedTail rest with
                | none => rw [hmt] at h4; exact absurd h4 (by simp)
                | some cap =>
                  rw [hmt] at h4
                  obtain ⟨hcapne, hcapnp, w, t, hw, ht, hrest⟩ :=
                    matchQuotedTail_sound rest cap hmt
                  refine ⟨s.data.takeWhile pySpace, l2.takeWhile pySpace,
                    (d :: l4t).takeWhile pySpace, cap, w, t, ?_, ?_,
                    fun c hc => List.mem_takeWhile_imp hc,
                    fun c hc => List.mem_takeWhile_imp hc,
                    fun c hc => List.mem_takeWhile_imp hc,
                    ?_, hcapne, hcapnp, hw, ht⟩
                  · exact (Option.some.inj h4).symm
                  · have a1 : s.data = s.data.takeWhile pySpace ++ ('#' :: l2) := by
                      conv_lhs => rw [← List.takeWhile_append_dropWhile pySpace s.data]
                      rw [e1]
                    have a2 : l2.dropWhile pySpace = ("include").data ++ (d :: l4t) := by
                      rw [← h7, ← e3, List.take_append_drop]
                    have a3 : l2 = l2.takeWhile pySpace ++
                        (("include").data ++ (d :: l4t)) := by
                      conv_lhs => rw [← List.takeWhile_append_dropWhile pySpace l2]
                      rw [a2]
                    have a4 : (d :: l4t) = (d :: l4t).takeWhile pySpace ++
                        ('"' :: rest) := by
                      conv_lhs => rw [← List.takeWhile_append_dropWhile pySpace (d :: l4t)]
                      rw [e4]
                    calc s.data
                        = s.data.takeWhile pySpace ++ ('#' :: l2) := a1
                      _ = s.data.takeWhile pySpace ++ ('#' :: (l2.takeWhile pySpace ++
                            (("include").data ++ (d :: l4t)))) := by rw [← a3]
                      _ = s.data.takeWhile pySpace ++ ('#' :: (l2.takeWhile pySpace ++
                            (("include").data ++ ((d :: l4t).takeWhile pySpace ++
                              ('"' :: rest))))) := by rw [← a4]
                      _ = s.data.takeWhile pySpace ++ ('#' :: (l2.takeWhile pySpace ++
                            (("include").data ++ ((d :: l4t).takeWhile pySpace ++
                              ('"' :: (cap ++ '"' :: w :: t)))))) := by rw [← hrest]
                  · have : (d :: l4t).takeWhile pySpace = d :: l4t.takeWhile pySpace := by
                      rw [List.takeWhile_cons, if_pos hd]
                    rw [this]
                    exact List.cons_ne_nil d (l4t.takeWhile pySpace)
              · rw [if_neg hq] at h4; exact absurd h4 (by simp)
          · rw [if_neg hd] at h3; exact absurd h3 (by simp)
      · rw [if_neg h7] at h2; exact absurd h2 (by simp)
    · rw [if_neg hc] at h2; exact absurd h2 (by simp)

theorem include_match_complete (s : String)
    (w1 w2 w3 cap : List Char) (w : Char) (t : List Char)
    (hs : s.data = w1 ++ '#' :: (w2 ++ (("include").data ++ (w3 ++ '"' ::
      (cap ++ '"' :: w :: t)))))
    (hw1 : ∀ c ∈ w1, pySpace c = true) (hw2 : ∀ c ∈ w2, pySpace c = true)
    (hw3 : ∀ c ∈ w3, pySpace c = true) (hw3ne : w3 ≠ []) (hcapne : cap ≠ [])
    (hcapnp : ')' ∉ cap) (hw : pySpace w = true) (ht : t = [] ∨ t = ['\n']) :
    amalgamate_include_match s = some (String.mk cap) := by
  obtain ⟨d, w3', rfl⟩ : ∃ d w3', w3 = d :: w3' := by
    cases w3 with
    | nil => exact absurd rfl hw3ne
    | cons d w3' => exact ⟨d, w3', rfl⟩
  have hd : pySpace d = true := hw3 d (List.mem_cons_self d w3')
  have e1 : s.data.dropWhile pySpace = '#' :: (w2 ++ (("include").data ++
      ((d :: w3') ++ '"' :: (cap ++ '"' :: w :: t)))) := by
    rw [hs]
    exact dropWhile_all_cons pySpace w1 '#' _ hw1 (by decide)
  have e2 : (w2 ++ (("include").data ++ ((d :: w3') ++ '"' ::
      (cap ++ '"' :: w :: t)))).dropWhile pySpace
      = ("include").data ++ ((d :: w3') ++ '"' :: (cap ++ '"' :: w :: t)) :=
    dropWhile_all_cons pySpace w2 'i'
      (("nclude").data ++ ((d :: w3') ++ '"' :: (cap ++ '"' :: w :: t))) hw2 (by decide)
  have e3t : (("include").data ++ ((d :: w3') ++ '"' ::
      (cap ++ '"' :: w :: t))).take 7 = ("include").data := rfl
  have e3d : (("include").data ++ ((d :: w3') ++ '"' ::
      (cap ++ '"' :: w :: t))).drop 7 = (d :: w3') ++ '"' :: (cap ++ '"' :: w :: t) := rfl
  have e4 : ((d :: w3') ++ '"' :: (cap ++ '"' :: w :: t)).dropWhile pySpace
      = '"' :: (cap ++ '"' :: w :: t) :=
    dropWhile_all_cons pySpace (d :: w3') '"' _ hw3 (by decide)
  have e5 : matchQuotedTail (cap ++ '"' :: w :: t) = some cap :=
    matchQuotedTail_complete cap w t hcapne hcapnp hw ht
  unfold amalgamate_include_match
  rw [e1]
  show (if '#' = '#' then afterHash (w2 ++ (("include").data ++
      ((d :: w3') ++ '"' :: (cap ++ '"' :: w :: t)))) else none) = some (String.mk cap)
  rw [if_pos rfl]
  unfold afterHash
  rw [e2, e3t, e3d, if_pos rfl]
  have ai : afterInclude ((d :: w3') ++ '"' :: (cap ++ '"' :: w :: t)) =
      if pySpace d = true then
        afterQuote (((d :: w3') ++ '"' :: (cap ++ '"' :: w :: t)).dropWhile pySpace)
      else none := rfl
  rw [ai, if_pos hd, e4]
  have aq : afterQuote ('"' :: (cap ++ '"' :: w :: t)) =
      if '"' = '"' then Option.map String.mk (matchQuotedTail (cap ++ '"' :: w :: t))
      else none := rfl
  rw [aq, if_pos rfl, e5]
  rfl

/-! ### Claim C4 -/

/-- C4 counterexample: the line `#include "x.h"` followed by two spaces and
the newline consists of the directive, a double-quoted path and nothing but
trailing whitespace, so under the claim's reading ("optional trailing
whitespace") it would be recognised — but the pattern `\s$` accepts exactly
one whitespace character there, so the matcher rejects it. -/
theorem c4_counterexample :
    amalgamate_include_match ("#include \"x.h\"  \n") = none ∧
    ("#include \"x.h\"  \n").data = ("#include \"x.h\"").data ++ [' ', ' ', '\n'] ∧
    (∀ c ∈ [' ', ' ', '\n'], pySpace c = true) := by
  refine ⟨by decide, by decide, by decide⟩

/-- C4 (amended): a line is recognised as a local include directive if and
only if it consists of optional leading whitespace, `#`, optional
whitespace, the word `include`, at least one whitespace character, a
double-quoted path (nonempty and containing no `)` — it may contain inner
quote characters), and then exactly ONE trailing whitespace character which
must end the line apart from an optional final newline (the newline itself
may serve as that one character).  In particular a line with a trailing
comment after the closing quote does not match, and neither does a line
with two or more whitespace characters between the closing quote and the
final newline, nor a line with no character at all after the closing
quote. -/
theorem c4_include_pattern_amended (s : String) :
    (amalgamate_include_match s).isSome = true ↔
      ∃ w1 w2 w3 cap w t,
        s.data = w1 ++ '#' :: (w2 ++ (("include").data ++ (w3 ++ '"' ::
          (cap ++ '"' :: w :: t)))) ∧
        (∀ c ∈ w1, pySpace c = true) ∧ (∀ c ∈ w2, pySpace c = true) ∧
        (∀ c ∈ w3, pySpace c = true) ∧ w3 ≠ [] ∧ cap ≠ [] ∧ ')' ∉ cap ∧
        pySpace w = true ∧ (t = [] ∨ t = ['\n']) := by
  constructor
  · intro h
    obtain ⟨p, hp⟩ := Option.isSome_iff_exists.mp h
    obtain ⟨w1, w2, w3, cap, w, t, _, hs, hw1, hw2, hw3, h3ne, hcne, hcnp, hw, ht⟩ :=
      include_match_sound s p hp
    exact ⟨w1, w2, w3, cap, w, t, hs, hw1, hw2, hw3, h3ne, hcne, hcnp, hw, ht⟩
  · rintro ⟨w1, w2, w3, cap, w, t, hs, hw1, hw2, hw3, h3ne, hcne, hcnp, hw, ht⟩
    rw [include_match_complete s w1 w2 w3 cap w t hs hw1 hw2 hw3 h3ne hcne hcnp hw ht]
    rfl

/-! ### Claim C10 -/

/-- C10: the captured path of the include pattern admits any character
except a closing parenthesis — every successful match's capture is free of
`)` (so a line whose quoted path contains `)` is never recognised, witness
the concrete rejection below), while a line with embedded double quotes
between the first quote and the line's final quote, such as
`#include "a" "b"`, is recognised with the capture extending to the final
quote. -/
theorem c10_capture_class :
    (∀ s p, amalgamate_include_match s = some p → ')' ∉ p.data) ∧
    amalgamate_include_match ("#include \"a\" \"b\"\n") = some ("a\" \"b") ∧
    amalgamate_include_match ("#include \"x)y.h\"\n") = none := by
  refine ⟨?_, by decide, by decide⟩
  intro s p hp
  obtain ⟨w1, w2, w3, cap, w, t, hpc, _, _, _, _, _, _, hcnp, _, _⟩ :=
    include_match_sound s p hp
  rw [hpc]
  exact hcnp

/-- Witness for the universally quantified part of the capture-class
theorem: at the concrete matched line the capture is `a" "b` and indeed
contains no closing parenthesis. -/
theorem c10_capture_class_witness : ')' ∉ ("a\" \"b").data :=
  c10_capture_class.1 ("#include \"a\" \"b\"\n") ("a\" \"b") (by decide)

/-! ### Claim C7 -/

/-- C7 counterexample: with output directory `out` and staging directory
`out/simde-1.0`, the first archive entry name the code produces is
`simde-1.0/simde/arm/neon.h` — the path relative to the OUTPUT directory —
while the name relative to the staging root would be `simde/arm/neon.h`;
the produced name list differs from the staging-root-relative list, so
entry names are not taken relative to the staging root. -/
theorem c7_counterexample :
    (archiveEntryNames fsArc ("simde") ("out/simde-1.0/simde") ("out/simde-1.0")
        ("out") true).head? = some ("simde-1.0/simde/arm/neon.h") ∧
    ((stagedFiles fsArc ("simde") ("out/simde-1.0/simde") ("out/simde-1.0")
        true).map (fun p => posixRel p ("out/simde-1.0"))).head? =
      some ("simde/arm/neon.h") ∧
    archiveEntryNames fsArc ("simde") ("out/simde-1.0/simde") ("out/simde-1.0")
        ("out") true ≠
      (stagedFiles fsArc ("simde") ("out/simde-1.0/simde") ("out/simde-1.0")
        true).map (fun p => posixRel p ("out/simde-1.0")) := by
  refine ⟨by decide, by decide, by decide⟩

/-- C7 (amended): when all N configured entries exist on disk, the archive
holds exactly N amalgamated files plus the license file when one is
present at the invocation directory, and every entry name is the staged
path made relative to the OUTPUT directory (hence beginning with the
staging directory's own name), not relative to the staging root. -/
theorem c7_archive_completeness_amended (fs : FileSys)
    (sourceDir outputSimdeDir baseDir outputDir : String) (lic : Bool)
    (hall : ∀ rel ∈ EXPECTED_FILES, fs.pathExists (fs.joinPath sourceDir rel) = true) :
    (archiveEntryNames fs sourceDir outputSimdeDir baseDir outputDir lic).length =
      EXPECTED_FILES.length + (if lic then 1 else 0) ∧
    archiveEntryNames fs sourceDir outputSimdeDir baseDir outputDir lic =
      (stagedFiles fs sourceDir outputSimdeDir baseDir lic).map
        (fun p => fs.relpath p outputDir) := by
  constructor
  · have hfilter : EXPECTED_FILES.filter
        (fun rel => fs.pathExists (fs.joinPath sourceDir rel)) = EXPECTED_FILES :=
      List.filter_eq_self.mpr hall
    unfold archiveEntryNames stagedFiles
    rw [hfilter]
    cases lic <;> simp
  · rfl

/-- Witness for the amended archive-completeness theorem on the concrete
all-files-exist filesystem. -/
theorem c7_amended_witness :
    (archiveEntryNames fsArc ("simde") ("out/simde-1.0/simde") ("out/simde-1.0")
        ("out") true).length = EXPECTED_FILES.length + (if true then 1 else 0) ∧
    archiveEntryNames fsArc ("simde") ("out/simde-1.0/simde") ("out/simde-1.0")
        ("out") true =
      (stagedFiles fsArc ("simde") ("out/simde-1.0/simde") ("out/simde-1.0")
        true).map (fun p => fsArc.relpath p ("out")) :=
  c7_archive_completeness_amended fsArc ("simde") ("out/simde-1.0/simde")
    ("out/simde-1.0") ("out") true (fun _ _ => rfl)

/-! ### Concrete witnesses -/

/-- On `fsM` every existing path can be read (no race). -/
theorem noRaceM : ∀ p, fsM.pathExists p = true → (fsM.readFile p).isSome = true := by
  intro p hp
  have hp' : (p = "S/arm/neon.h" ∨ p = "S/arm/sve.h") ∨ p = "S/shared.h" := by
    simpa [fsM, Bool.or_eq_true, beq_iff_eq] using hp
  rcases hp' with (rfl | rfl) | rfl <;> rfl

/-- Every existing path of `fsC` has its canonical form in the key list. -/
theorem keysC_complete : ∀ p, fsC.pathExists p = true →
    fsC.realpath p ∈ (["S/a.h", "S/b.h"] : List String) := by
  intro p hp
  have hp' : p = "S/a.h" ∨ p = "S/b.h" := by
    simpa [fsC, Bool.or_eq_true, beq_iff_eq] using hp
  rcases hp' with rfl | rfl <;> decide

/-- Witness for C1 at a concrete input whose canonical path is already in
the record: the output is exactly the two banners. -/
theorem c1_witness :
    (bannerLines ("G")).take 2 = bannerLines ("G") ∧
    (fsM.realpath ("S/arm/neon.h") ∈ (["S/arm/neon.h"] : List String) →
      bannerLines ("G") = bannerLines ("G") ∧
        (["S/arm/neon.h"] : List String) = ["S/arm/neon.h"]) :=
  c1_banners_then_duplicate_suppression fsM ("G") ("R") 0 ("S/arm/neon.h")
    ["S/arm/neon.h"] (bannerLines ("G")) ["S/arm/neon.h"] (by decide)

/-- Witness for C2: the two configured headers `arm/neon.h` and `arm/sve.h`
of `fsM` share the nested include `S/shared.h`; both runs appear in
`mainRuns` and both outputs carry the full expansion of the shared file. -/
theorem c2_witness :
    (("arm/neon.h", amalgamate fsM ("G") ("R") 3 (fsM.joinPath ("S") ("arm/neon.h")) [])
        ∈ mainRuns fsM ("G") ("S") ("R") 3) ∧
    (("arm/sve.h", amalgamate fsM ("G") ("R") 3 (fsM.joinPath ("S") ("arm/sve.h")) [])
        ∈ mainRuns fsM ("G") ("S") ("R") 3) ∧
    beginMarker (replaceBackslash (fsM.relpath ("S/shared.h") ("R"))) ∈ out1W ∧
    endMarker (replaceBackslash (fsM.relpath ("S/shared.h") ("R"))) ∈ out1W ∧
    beginMarker (replaceBackslash (fsM.relpath ("S/shared.h") ("R"))) ∈ out2W ∧
    endMarker (replaceBackslash (fsM.relpath ("S/shared.h") ("R"))) ∈ out2W :=
  c2_fresh_record_independent_expansion fsM ("G") ("S") ("R") 3 noRaceM
    ("arm/neon.h") ("arm/sve.h") (by decide) (by decide) (by decide) (by decide)
    out1W ["S/arm/neon.h", "S/shared.h"] out2W ["S/arm/sve.h", "S/shared.h"]
    (by decide) (by decide) ("S/shared.h") (by decide) (by decide)

/-- Witness for C3: the plain line of `S/shared.h` appears verbatim in the
output of its run. -/
theorem c3_witness : ("int x;\n" : String) ∈ out3W :=
  c3_verbatim_passthrough fsM ("G") ("R") 0 ("S/shared.h") [] (["int x;\n"])
    ("int x;\n") out3W (["S/shared.h"]) (by decide) (by decide) (by decide) (by decide)
    (by decide)

/-- Witness for C5: applying the resolution theorem at `S/arm/neon.h`,
whose single line includes `shared.h`, and evaluating the resolved branch
yields the fully expanded output. -/
theorem c5_witness :
    amalgamate fsM ("G") ("R") (2 + 1) ("S/arm/neon.h") [] =
      some (out1W, ["S/arm/neon.h", "S/shared.h"]) := by
  have h := (c5_include_resolution fsM ("G") ("R") 2 ("S/arm/neon.h") []
    ("#include \"shared.h\"\n") [] ("shared.h") (by decide) (by decide) (by decide)).2
    (by decide)
  rw [h]
  decide

/-- Witness for C6: opening `S/x.h` fails on `fsM`; the call returns the
banners plus one diagnostic line. -/
theorem c6_witness :
    amalgamate fsM ("G") ("R") (0 + 1) ("S/x.h") [] =
      some (bannerLines ("G") ++ [errorLine ("S/x.h")],
        [] ++ [fsM.realpath ("S/x.h")]) :=
  c6_open_failure_single_diagnostic fsM ("G") ("R") 0 ("S/x.h") [] (by decide) (by decide)

/-- Witness for C8: after the failed open of `S/x.h` its path is recorded,
and a second call on the same path (different banner tag) emits only the
two banners. -/
theorem c8_witness :
    (amalgamate fsM ("G") ("R") (0 + 1) ("S/x.h") [] =
        some (bannerLines ("G") ++ [errorLine ("S/x.h")],
          [] ++ [fsM.realpath ("S/x.h")])
      ∧ fsM.realpath ("S/x.h") ∈ [] ++ [fsM.realpath ("S/x.h")]) ∧
    amalgamate fsM ("H") ("T") (0 + 1) ("S/x.h") ([] ++ [fsM.realpath ("S/x.h")]) =
      some (bannerLines ("H"), [] ++ [fsM.realpath ("S/x.h")]) :=
  c8_failed_open_still_recorded fsM fsM ("G") ("H") ("R") ("T") 0 0 ("S/x.h") ("S/x.h")
    [] (by decide) (by decide) (by decide)

/-- Witness for C9: on the cyclic filesystem `fsC` (where `S/a.h` and
`S/b.h` include each other) fuel `4 = remCount + 2` suffices and the run
delivers a result. -/
theorem c9_witness :
    remCount (["S/a.h", "S/b.h"] : List String) [] + 2 ≤ 4 ∧
    (amalgamate fsC ("G") ("R") 4 ("S/a.h") []).isSome = true :=
  ⟨by decide, c9_terminates_on_cycles fsC ("G") ("R") ["S/a.h", "S/b.h"]
    keysC_complete 4 ("S/a.h") [] (by decide)⟩
